import Mathlib

/-!
Shallow embedding of the core real-time EMG pipeline of this repository:
the fixed-capacity ring buffer and the gesture messager of
`utilities/messaging_utilities.py`, and the signal-conditioning,
windowing and feature-extraction functions of
`utilities/emg_processing.py`.

Numeric values are embedded as exact rationals (`ℚ`).  Library
transcendentals (`np.sqrt`, `np.exp`, `np.log`) and the external numeric
kernels (scipy filtering, Hilbert envelope, the single-level wavelet
analysis filters of `pywt`) are abstracted as function parameters of the
embedding: no claim below depends on their numeric values, only on the
shapes, counts and argument structure surrounding them.
-/

/-- Last `n` elements of a list: the retention behaviour of a Python
`deque` with `maxlen` set, and the logical content of a capacity-`n`
ring after an append sequence. -/
def takeLast (n : Nat) (l : List α) : List α := l.drop (l.length - n)

/-- State of `RingBuffer` (`messaging_utilities.py`, lines 106-137): two
parallel backing arrays of length `max` (sample rows and timestamps), a
write cursor `cur` (next slot to overwrite, modulo `max`) and a fill
count `size`.  A sample row is a `List ℚ`, one rational per channel. -/
structure RingBuffer where
  max : Nat
  samples : List (List ℚ)
  timestamp : List ℚ
  cur : Nat
  size : Nat
deriving Repr, DecidableEq

/-- `RingBuffer.__init__(num_channels, size_max)`: zero-filled backing
arrays, cursor and fill count start at 0. -/
def RingBuffer.init (num_channels size_max : Nat) : RingBuffer :=
  ⟨size_max, List.replicate size_max (List.replicate num_channels 0),
   List.replicate size_max 0, 0, 0⟩

/-- `RingBuffer.append(t, x)`: write the row and timestamp into the
cursor slot, advance the cursor modulo `max`, saturate the fill count at
`max`. -/
def RingBuffer.append (b : RingBuffer) (t : ℚ) (x : List ℚ) : RingBuffer :=
  { b with
    samples := b.samples.set b.cur x
    timestamp := b.timestamp.set b.cur t
    cur := (b.cur + 1) % b.max
    size := min (b.size + 1) b.max }

/-- `RingBuffer.get_samples(n)`: `none` models the `ValueError` raised
when `n` exceeds the fill count; otherwise the returned pair is the
requested slice of rows and timestamps, assembled with the wrap-around
concatenation of the source.  Python's `(end_idx - n) % max` on the
reachable domain `0 ≤ n ≤ size ≤ max` equals `(end_idx + max - n) % max`
in ℕ, which is how it is written here. -/
def RingBuffer.get_samples (b : RingBuffer) (n : Nat) :
    Option (List (List ℚ) × List ℚ) :=
  if n > b.size then none
  else
    let endIdx := if b.size = b.max then b.cur else b.size
    let startIdx := (endIdx + b.max - n) % b.max
    if startIdx < endIdx then
      some ((b.samples.drop startIdx).take (endIdx - startIdx),
            (b.timestamp.drop startIdx).take (endIdx - startIdx))
    else
      some (b.samples.drop startIdx ++ b.samples.take endIdx,
            b.timestamp.drop startIdx ++ b.timestamp.take endIdx)

/-- `RingBuffer.is_full()`: the fill count has reached capacity. -/
def RingBuffer.is_full (b : RingBuffer) : Bool := b.size == b.max

/-- The local `end_idx` computed by `get_samples` (line 127): the cursor
once the buffer is full, the fill count before that. -/
def RingBuffer.endIndex (b : RingBuffer) : Nat :=
  if b.size = b.max then b.cur else b.size

/-- Folding a whole append sequence (oldest first) into the buffer. -/
def RingBuffer.appendAll (b : RingBuffer) (items : List (ℚ × List ℚ)) :
    RingBuffer :=
  items.foldl (fun acc it => acc.append it.1 it.2) b

/-- Structural invariant of every buffer reachable from
`RingBuffer.init` with positive capacity: backing arrays keep their
length, the cursor stays below capacity, the fill count stays at most
capacity, and while the buffer is not yet full the cursor equals the
fill count. -/
def RingBuffer.Inv (b : RingBuffer) : Prop :=
  b.samples.length = b.max ∧ b.timestamp.length = b.max ∧
  b.cur < b.max ∧ b.size ≤ b.max ∧ (b.size = b.max ∨ b.cur = b.size)

/-- Abstraction function: the logically stored sample rows, oldest to
newest.  The `j`-th oldest row sits in slot `(cur + max - size + j) % max`. -/
def RingBuffer.absSamples (b : RingBuffer) : List (List ℚ) :=
  (List.range b.size).map
    (fun j => b.samples.getD ((b.cur + b.max - b.size + j) % b.max) [])

/-- Abstraction function for the parallel timestamp array. -/
def RingBuffer.absTimes (b : RingBuffer) : List ℚ :=
  (List.range b.size).map
    (fun j => b.timestamp.getD ((b.cur + b.max - b.size + j) % b.max) 0)

/-- Semantics of Python (3.8 and later) `statistics.mode` on a list of
labels, as used by `PicoMessager.update_gesture`: the first-encountered
most common value; a `StatisticsError` (here `none`) only on empty
input. -/
def pyMode : List String → Option String
  | [] => none
  | x :: xs =>
    some (xs.foldl
      (fun best y =>
        if (x :: xs).count y > (x :: xs).count best then y else best) x)

/-- State of `PicoMessager` (`messaging_utilities.py`, lines 7-50)
relevant to gesture smoothing: the bounded gesture history (a
`collections.deque` with `maxlen`, oldest first) and the currently
active gesture (`None` at construction). -/
structure PicoMessager where
  maxlen : Nat
  buffer : List String
  current_gesture : Option String
deriving Repr, DecidableEq

/-- `PicoMessager.__init__(buffer_size)`: empty history, no active
gesture. -/
def PicoMessager.init (buffer_size : Nat) : PicoMessager :=
  ⟨buffer_size, [], none⟩

/-- `PicoMessager.update_gesture(new_gesture)`: append the label to the
bounded history, compute the library mode of the history, and if that
mode is truthy (a non-empty string) and differs from the active gesture,
set the active gesture and send it.  The second component is the message
passed to `send_message`, `none` when nothing is sent. -/
def PicoMessager.update_gesture (m : PicoMessager) (new_gesture : String) :
    PicoMessager × Option String :=
  let buf := takeLast m.maxlen (m.buffer ++ [new_gesture])
  match pyMode buf with
  | none => ({ m with buffer := buf }, none)
  | some mc =>
    if mc ≠ "" ∧ some mc ≠ m.current_gesture then
      ({ m with buffer := buf, current_gesture := some mc }, some mc)
    else
      ({ m with buffer := buf }, none)

/-- Feeding a whole label sequence through `update_gesture`, collecting
the messages sent along the way in order. -/
def PicoMessager.observeAll (m : PicoMessager) (gs : List String) :
    PicoMessager × List String :=
  gs.foldl
    (fun acc g =>
      let r := acc.1.update_gesture g
      (r.1, acc.2 ++ r.2.toList))
    (m, [])

/-- Start indices of the windowing loops of `emg_processing.py`
(`sliding_window`, line 309, and `extract_wavelet_features`, line 24):
Python `range(0, num_samples - window_size + 1, step)`, empty when the
stop bound is not positive.  `step ≥ 1` is assumed, as in every call of
the source (Python raises on `step = 0`). -/
def window_starts (num_samples window_size step : Nat) : List Nat :=
  if window_size ≤ num_samples then
    (List.range ((num_samples - window_size + 1 + step - 1) / step)).map
      (fun i => i * step)
  else []

/-- `sliding_window(data, window_size, step_size)` on a rectangular
`(channels, samples)` block: one `data[:, start:start+window_size]`
slice per start index.  The sample count of the block is the common row
length, read off the first row as numpy reads `data.shape`. -/
def sliding_window (data : List (List ℚ)) (window_size step_size : Nat) :
    List (List (List ℚ)) :=
  (window_starts (data.headD []).length window_size step_size).map
    (fun start => data.map (fun row => (row.drop start).take window_size))

/-- numpy transpose `window.T` of a rectangular `(window_size, nch)`
block, with the column count `nch` explicit because an empty
list-of-rows carries no shape of its own. -/
def matT (nch : Nat) (m : List (List ℚ)) : List (List ℚ) :=
  (List.range nch).map (fun c => m.map (fun row => row.getD c 0))

/-- `np.diff`: first differences. -/
def npDiff (l : List ℚ) : List ℚ := List.zipWith (fun a b => b - a) l l.tail

/-- `np.mean` over exact rationals (division by zero yields the junk
value 0 where numpy would produce NaN; no claim depends on that case). -/
def npMean (l : List ℚ) : ℚ := l.sum / l.length

/-- `np.var` (population variance). -/
def npVar (l : List ℚ) : ℚ :=
  ((l.map (fun x => (x - npMean l) ^ 2)).sum) / l.length

/-- `np.min` of a nonempty list (junk value 0 on empty, where numpy
raises). -/
def npMin : List ℚ → ℚ
  | [] => 0
  | x :: xs => xs.foldl min x

/-- `np.max` of a nonempty list (junk value 0 on empty, where numpy
raises). -/
def npMax : List ℚ → ℚ
  | [] => 0
  | x :: xs => xs.foldl max x

/-- The array `np.abs(coeff) + 1e-6` of arguments handed to `np.log` by
the IALV descriptor (`emg_processing.py`, line 51). -/
def logArgs (coeff : List ℚ) : List ℚ :=
  coeff.map (fun x => |x| + 1 / 1000000)

/-- The 19 descriptors computed per wavelet component in
`extract_wavelet_features` (lines 35-55), in source order: IEMG, MAV,
SSI, RMS, VAR, MYOP, WL, DAMV, M2, DVARV, DASDV, WAMP, IASD, IATD,
IEAV, IALV, IE, MIN, MAX.  The transcendentals `np.sqrt`, `np.exp`,
`np.log` are abstracted as the parameters `sqrtF`, `expF`, `logF`. -/
def features19 (sqrtF expF logF : ℚ → ℚ) (coeff : List ℚ) : List ℚ :=
  [ (coeff.map (fun x => |x|)).sum,
    npMean (coeff.map (fun x => |x|)),
    (coeff.map (fun x => x ^ 2)).sum,
    sqrtF (npMean (coeff.map (fun x => x ^ 2))),
    npVar coeff,
    (coeff.countP (fun x => decide (0 < x)) : ℚ) / coeff.length,
    ((npDiff coeff).map (fun x => |x|)).sum,
    npMean ((npDiff coeff).map (fun x => |x|)),
    (coeff.map (fun x => x ^ 2)).sum / coeff.length,
    npVar (npDiff coeff),
    sqrtF (npVar (npDiff coeff)),
    (coeff.countP (fun x => decide ((1 : ℚ) / 20 < |x|)) : ℚ),
    ((npDiff (npDiff coeff)).map (fun x => |x|)).sum,
    ((npDiff (npDiff (npDiff coeff))).map (fun x => |x|)).sum,
    (coeff.map (fun x => expF |x|)).sum,
    ((logArgs coeff).map logF).sum,
    (coeff.map expF).sum,
    npMin coeff,
    npMax coeff ]

/-- Structure of `pywt.wavedec(channel_data, 'db4', level=2)` (line 30):
the coefficient list is `[cA2, cD2, cD1]` — one approximation and two
details, three components for a level-2 decomposition.  The single-level
db4 analysis convolutions are abstracted as the parameters `dwtA`
(low-pass) and `dwtD` (high-pass); no claim depends on the filter
taps. -/
def wavedec2 (dwtA dwtD : List ℚ → List ℚ) (x : List ℚ) : List (List ℚ) :=
  [dwtA (dwtA x), dwtD (dwtA x), dwtD x]

/-- `extract_wavelet_features(emg_data, window_size, overlap)` (lines
18-58): `emg_data` has shape `(num_samples, num_channels)` (rows are
samples), `step = window_size - overlap`, each window is transposed and
every channel contributes the 19 descriptors of each of its 3 wavelet
components, extended in order into one feature row per window. -/
def extract_wavelet_features (sqrtF expF logF : ℚ → ℚ)
    (dwtA dwtD : List ℚ → List ℚ) (emg_data : List (List ℚ)) (nch : Nat)
    (window_size overlap : Nat) : List (List ℚ) :=
  (window_starts emg_data.length window_size (window_size - overlap)).map
    (fun start =>
      let window := (emg_data.drop start).take window_size
      (matT nch window).flatMap
        (fun channel_data =>
          (wavedec2 dwtA dwtD channel_data).flatMap
            (features19 sqrtF expF logF)))

/-- `rectify_emg(emg_data)` (lines 156-168): elementwise absolute value,
a fresh array. -/
def rectify_emg (emg_data : List (List ℚ)) : List (List ℚ) :=
  emg_data.map (fun row => row.map (fun x => |x|))

/-- Column sums of a `(channels, samples)` block with `n` samples:
`np.sum(emg_data, axis=0)`. -/
def colSum (n : Nat) : List (List ℚ) → List ℚ
  | [] => List.replicate n 0
  | r :: rs => List.zipWith (fun a b => a + b) r (colSum n rs)

/-- `np.mean(emg_data, axis=0)` (line 251): the per-sample cross-channel
average. -/
def common_avg (n : Nat) (emg_data : List (List ℚ)) : List ℚ :=
  (colSum n emg_data).map (fun s => s / emg_data.length)

/-- `common_average_reference(emg_data)` (lines 240-256): subtract the
per-sample common average from every channel. -/
def common_average_reference (n : Nat) (emg_data : List (List ℚ)) :
    List (List ℚ) :=
  emg_data.map
    (fun row => List.zipWith (fun a c => a - c) row (common_avg n emg_data))

/-- Adding the per-sample common average of `orig` back onto a block:
the inverse direction of the spec's round-trip property for CAR. -/
def add_common_average (n : Nat) (orig car_data : List (List ℚ)) :
    List (List ℚ) :=
  car_data.map
    (fun row => List.zipWith (fun a c => a + c) row (common_avg n orig))

/-- Effect of the in-place statement `emg_data[:, -sample_rate:] = 0.0`
(line 278) on one channel row: the trailing `fs` entries become 0, the
leading entries are kept. -/
def zero_trailing (fs : Nat) (row : List ℚ) : List ℚ :=
  row.take (row.length - fs) ++ List.replicate (min fs row.length) 0

/-- `process_emg_pipeline(data, ...)` (lines 268-291): zero the trailing
one second of the input block IN PLACE, then bandpass-filter and extract
the Hilbert envelope (both fresh, abstracted as `filterF` and `envF`).
The result pair is `(returned block, content of the caller's input array
after the call)` — the second component makes the frame effect of the
in-place zeroing explicit. -/
def process_emg_pipeline (filterF envF : List (List ℚ) → List (List ℚ))
    (emg_data : List (List ℚ)) (sample_rate : Nat) :
    List (List ℚ) × List (List ℚ) :=
  let zeroed := emg_data.map (zero_trailing sample_rate)
  (envF (filterF zeroed), zeroed)

/-! ### Basic facts about `takeLast` -/

theorem takeLast_length (n : Nat) (l : List α) :
    (takeLast n l).length = min n l.length := by
  simp only [takeLast, List.length_drop]
  omega

theorem takeLast_all {n : Nat} {l : List α} (h : l.length ≤ n) :
    takeLast n l = l := by
  simp [takeLast, Nat.sub_eq_zero_of_le h]

theorem takeLast_takeLast {n m : Nat} (l : List α) (h : n ≤ m) :
    takeLast n (takeLast m l) = takeLast n l := by
  simp only [takeLast, List.length_drop, List.drop_drop]
  congr 1
  omega

theorem takeLast_takeLast_append (n : Nat) (l l' : List α) :
    takeLast n (takeLast n l ++ l') = takeLast n (l ++ l') := by
  rcases le_or_lt l.length n with h | h
  · rw [takeLast_all h]
  · simp only [takeLast, List.length_append, List.length_drop,
      List.drop_append_eq_append_drop, List.drop_drop]
    have h1 : l.length - (l.length - n) = n := by omega
    rw [h1]
    congr 2 <;> omega

/-! ### Arithmetic and `getD`/`set` helpers -/

theorem add_shift_mod_ne {c m k : Nat} (hc : c < m) (h1 : 1 ≤ k)
    (h2 : k < m) : (c + k) % m ≠ c := by
  rcases Nat.lt_or_ge (c + k) m with h | h
  · rw [Nat.mod_eq_of_lt h]
    omega
  · rw [Nat.mod_eq_sub_mod h, Nat.mod_eq_of_lt (by omega)]
    omega

theorem getD_set_ne {l : List α} {i k : Nat} (h : i ≠ k) (a d : α) :
    (l.set i a).getD k d = l.getD k d := by
  rw [List.getD_eq_getElem?_getD, List.getD_eq_getElem?_getD,
    List.getElem?_set_ne h]

theorem getD_set_self {l : List α} {i : Nat} (h : i < l.length)
    (a d : α) : (l.set i a).getD i d = a := by
  rw [List.getD_eq_getElem?_getD, List.getElem?_set_self h]
  rfl

/-! ### RingBuffer: invariant and field evolution -/

theorem RingBuffer.inv_init {num_channels size_max : Nat}
    (h : 0 < size_max) : (RingBuffer.init num_channels size_max).Inv := by
  refine ⟨?_, ?_, ?_, ?_, ?_⟩ <;>
    simp [RingBuffer.init, RingBuffer.Inv, h]

theorem RingBuffer.inv_append {b : RingBuffer} (hInv : b.Inv) (t : ℚ)
    (x : List ℚ) : (b.append t x).Inv := by
  obtain ⟨hs, ht, hc, hsz, hd⟩ := hInv
  have hm : 0 < b.max := by omega
  refine ⟨?_, ?_, ?_, ?_, ?_⟩
  · simpa [RingBuffer.append] using hs
  · simpa [RingBuffer.append] using ht
  · exact Nat.mod_lt _ hm
  · simp [RingBuffer.append]
  · rcases hd with h | h
    · left
      simp [RingBuffer.append]
      omega
    · rcases Nat.lt_or_ge (b.size + 1) b.max with h2 | h2
      · right
        simp only [RingBuffer.append, h]
        rw [Nat.mod_eq_of_lt h2]
        omega
      · left
        simp [RingBuffer.append]
        omega

theorem ring_slot_shift {c m s : Nat} (j : Nat) (hc : c < m)
    (hs : s + 1 ≤ m) :
    ((c + 1) % m + m - (s + 1) + j) % m = (c + m - s + j) % m := by
  rcases Nat.lt_or_ge (c + 1) m with h | h
  · rw [Nat.mod_eq_of_lt h]
    congr 1
    omega
  · have hc1 : (c + 1) % m = 0 := by
      have e : c + 1 = m := by omega
      simp [e]
    rw [hc1]
    have e1 : c + m - s + j = (0 + m - (s + 1) + j) + m := by omega
    rw [e1, Nat.add_mod_right]

theorem ring_step {α : Type} (d : α) (arr : List α) (m c s : Nat) (x : α)
    (hlen : arr.length = m) (hc : c < m) (hs : s ≤ m) :
    (List.range (min (s + 1) m)).map
      (fun j =>
        (arr.set c x).getD (((c + 1) % m + m - min (s + 1) m + j) % m) d) =
    takeLast m
      (((List.range s).map (fun j => arr.getD ((c + m - s + j) % m) d))
        ++ [x]) := by
  have hm : 0 < m := by omega
  rcases Nat.lt_or_ge s m with hsm | hsm
  · -- filling phase: s + 1 ≤ m, nothing is evicted
    have hmin : min (s + 1) m = s + 1 := by omega
    rw [hmin, takeLast_all (by simp; omega), List.range_succ,
      List.map_append]
    congr 1
    · apply List.map_congr_left
      intro j hj
      rw [List.mem_range] at hj
      rw [ring_slot_shift j hc (by omega)]
      have hne : (c + m - s + j) % m ≠ c := by
        have e : c + m - s + j = c + (m - (s - j)) := by omega
        rw [e]
        exact add_shift_mod_ne hc (by omega) (by omega)
      exact getD_set_ne (Ne.symm hne) x d
    · simp only [List.map_cons, List.map_nil]
      rw [ring_slot_shift s hc (by omega)]
      have e : c + m - s + s = c + m := by omega
      rw [e, Nat.add_mod_right, Nat.mod_eq_of_lt hc,
        getD_set_self (by omega) x d]
  · -- full phase: the oldest entry is evicted
    have hsem : s = m := by omega
    subst hsem
    have hmin : min (s + 1) s = s := by omega
    rw [hmin]
    have hA : ((List.range s).map
        (fun j => arr.getD ((c + s - s + j) % s) d)).length = s := by
      simp
    have hdrop : takeLast s
        (((List.range s).map (fun j => arr.getD ((c + s - s + j) % s) d))
          ++ [x]) =
        ((List.range s).map
          (fun j => arr.getD ((c + s - s + j) % s) d)).drop 1 ++ [x] := by
      rw [takeLast, List.length_append, hA, List.length_cons,
        List.length_nil, (by omega : s + (0 + 1) - s = 1),
        List.drop_append_eq_append_drop, hA,
        (by omega : 1 - s = 0), List.drop_zero]
    rw [hdrop]
    apply List.ext_getElem
    · simp
      omega
    · intro i h1 h2
      simp only [List.length_map, List.length_range] at h1
      rw [List.getElem_map, List.getElem_range]
      have e0 : (c + 1) % s + s - s + i = (c + 1) % s + i := by omega
      rw [e0, Nat.mod_add_mod]
      rcases Nat.lt_or_ge (1 + i) s with h | h
      · rw [List.getElem_append_left (by simp; omega)]
        rw [List.getElem_drop, List.getElem_map, List.getElem_range]
        have e1 : c + s - s + (1 + i) = c + (1 + i) := by omega
        rw [e1]
        have e2 : c + 1 + i = c + (1 + i) := by omega
        rw [e2]
        have hne : (c + (1 + i)) % s ≠ c :=
          add_shift_mod_ne hc (by omega) h
        exact getD_set_ne (Ne.symm hne) x d
      · rw [List.getElem_append_right (by simp; omega)]
        have e1 : c + 1 + i = c + s := by
          simp only [List.length_drop, List.length_map,
            List.length_range] at h2 ⊢
          omega
        rw [e1, Nat.add_mod_right, Nat.mod_eq_of_lt hc,
          getD_set_self (by omega) x d]
        simp only [List.length_drop, List.length_map, List.length_range]
        rw [List.getElem_singleton]

theorem RingBuffer.absSamples_length (b : RingBuffer) :
    b.absSamples.length = b.size := by
  simp [RingBuffer.absSamples]

theorem RingBuffer.absTimes_length (b : RingBuffer) :
    b.absTimes.length = b.size := by
  simp [RingBuffer.absTimes]

theorem RingBuffer.abs_append {b : RingBuffer} (hInv : b.Inv) (t : ℚ)
    (x : List ℚ) :
    (b.append t x).absSamples = takeLast b.max (b.absSamples ++ [x]) ∧
    (b.append t x).absTimes = takeLast b.max (b.absTimes ++ [t]) := by
  obtain ⟨hs, ht, hc, hsz, _⟩ := hInv
  constructor
  · simpa [RingBuffer.absSamples, RingBuffer.append] using
      ring_step [] b.samples b.max b.cur b.size x hs hc hsz
  · simpa [RingBuffer.absTimes, RingBuffer.append] using
      ring_step 0 b.timestamp b.max b.cur b.size t ht hc hsz

theorem RingBuffer.appendAll_spec (items : List (ℚ × List ℚ)) :
    ∀ b : RingBuffer, b.Inv →
      (b.appendAll items).max = b.max ∧
      (b.appendAll items).cur = (b.cur + items.length) % b.max ∧
      (b.appendAll items).size = min (b.size + items.length) b.max ∧
      (b.appendAll items).Inv ∧
      (b.appendAll items).absSamples =
        takeLast b.max (b.absSamples ++ items.map Prod.snd) ∧
      (b.appendAll items).absTimes =
        takeLast b.max (b.absTimes ++ items.map Prod.fst) := by
  induction items with
  | nil =>
    intro b hInv
    have hc := hInv.2.2.1
    have hsz := hInv.2.2.2.1
    simp only [RingBuffer.appendAll, List.foldl_nil, List.length_nil,
      List.map_nil, List.append_nil]
    refine ⟨trivial, ?_, ?_, hInv, ?_, ?_⟩
    · rw [Nat.add_zero, Nat.mod_eq_of_lt hc]
    · omega
    · exact (takeLast_all (by rw [b.absSamples_length]; omega)).symm
    · exact (takeLast_all (by rw [b.absTimes_length]; omega)).symm
  | cons a items ih =>
    intro b hInv
    have hstep : b.appendAll (a :: items) =
        (b.append a.1 a.2).appendAll items := rfl
    have hInv' := RingBuffer.inv_append hInv a.1 a.2
    obtain ⟨ihmax, ihcur, ihsize, ihinv, ihabsS, ihabsT⟩ := ih _ hInv'
    obtain ⟨habsS, habsT⟩ := RingBuffer.abs_append hInv a.1 a.2
    refine ⟨?_, ?_, ?_, ?_, ?_, ?_⟩
    · rw [hstep, ihmax]
      rfl
    · rw [hstep, ihcur]
      simp only [RingBuffer.append, Nat.mod_add_mod, List.length_cons]
      congr 1
      omega
    · rw [hstep, ihsize]
      simp only [RingBuffer.append, List.length_cons]
      omega
    · rw [hstep]
      exact ihinv
    · rw [hstep, ihabsS]
      simp only [RingBuffer.append] at habsS ⊢
      rw [habsS, takeLast_takeLast_append, List.map_cons,
        List.append_assoc, List.singleton_append]
    · rw [hstep, ihabsT]
      simp only [RingBuffer.append] at habsT ⊢
      rw [habsT, takeLast_takeLast_append, List.map_cons,
        List.append_assoc, List.singleton_append]

theorem RingBuffer.append_fields (b : RingBuffer) (t : ℚ) (x : List ℚ) :
    (b.append t x).max = b.max ∧
    (b.append t x).cur = (b.cur + 1) % b.max ∧
    (b.append t x).size = min (b.size + 1) b.max ∧
    (b.append t x).samples = b.samples.set b.cur x ∧
    (b.append t x).timestamp = b.timestamp.set b.cur t :=
  ⟨rfl, rfl, rfl, rfl, rfl⟩

/-! ### Reading the ring through `getD` -/

theorem ext_getD {α : Type} (d : α) {l₁ l₂ : List α}
    (hlen : l₁.length = l₂.length)
    (h : ∀ i, i < l₁.length → l₁.getD i d = l₂.getD i d) : l₁ = l₂ := by
  apply List.ext_getElem hlen
  intro i h1 h2
  have h3 := h i h1
  rwa [List.getD_eq_getElem _ _ h1, List.getD_eq_getElem _ _ h2] at h3

theorem getD_drop (l : List α) (k i : Nat) (d : α) :
    (l.drop k).getD i d = l.getD (k + i) d := by
  rw [List.getD_eq_getElem?_getD, List.getD_eq_getElem?_getD,
    List.getElem?_drop]

theorem getD_take {l : List α} {k i : Nat} (h : i < k) (d : α) :
    (l.take k).getD i d = l.getD i d := by
  rw [List.getD_eq_getElem?_getD, List.getD_eq_getElem?_getD,
    List.getElem?_take, if_pos h]

theorem getD_append_left {l₁ l₂ : List α} {i : Nat} (h : i < l₁.length)
    (d : α) : (l₁ ++ l₂).getD i d = l₁.getD i d := by
  rw [List.getD_eq_getElem?_getD, List.getD_eq_getElem?_getD,
    List.getElem?_append_left h]

theorem getD_append_right {l₁ l₂ : List α} {i : Nat}
    (h : l₁.length ≤ i) (d : α) :
    (l₁ ++ l₂).getD i d = l₂.getD (i - l₁.length) d := by
  rw [List.getD_eq_getElem?_getD, List.getD_eq_getElem?_getD,
    List.getElem?_append_right h]

theorem getD_map_range {α : Type} {f : Nat → α} {s i : Nat} (h : i < s)
    (d : α) : ((List.range s).map f).getD i d = f i := by
  rw [List.getD_eq_getElem?_getD, List.getElem?_map,
    List.getElem?_range h]
  rfl

theorem ring_get_slice {α : Type} (d : α) (arr : List α) (m c s n : Nat)
    (hlen : arr.length = m) (hc : c < m) (hs : s ≤ m) (h1 : 1 ≤ n)
    (h2 : n ≤ s) (h3 : n ≤ c) :
    (arr.drop (c - n)).take n =
    takeLast n
      ((List.range s).map (fun j => arr.getD ((c + m - s + j) % m) d)) := by
  have hLlen : ((List.range s).map
      (fun j => arr.getD ((c + m - s + j) % m) d)).length = s := by simp
  apply ext_getD d
  · rw [takeLast_length, hLlen]
    simp [hlen]
    omega
  · intro i hi
    have hin : i < n := by
      simp [hlen] at hi
      omega
    rw [getD_take hin, getD_drop, takeLast, hLlen, getD_drop,
      getD_map_range (by omega)]
    have e : c + m - s + (s - n + i) = (c - n + i) + m := by omega
    rw [e, Nat.add_mod_right, Nat.mod_eq_of_lt (by omega)]

theorem ring_get_wrap {α : Type} (d : α) (arr : List α) (m c s n : Nat)
    (hlen : arr.length = m) (hc : c < m) (hs : s ≤ m) (h2 : n ≤ s)
    (h3 : c < n) :
    arr.drop (c + m - n) ++ arr.take c =
    takeLast n
      ((List.range s).map (fun j => arr.getD ((c + m - s + j) % m) d)) := by
  have hLlen : ((List.range s).map
      (fun j => arr.getD ((c + m - s + j) % m) d)).length = s := by simp
  apply ext_getD d
  · rw [takeLast_length, hLlen]
    simp [hlen]
    omega
  · intro i hi
    have hin : i < n := by
      simp [hlen] at hi
      omega
    rw [takeLast, hLlen, getD_drop, getD_map_range (by omega)]
    rcases Nat.lt_or_ge i (n - c) with h | h
    · rw [getD_append_left (by simp [hlen]; omega), getD_drop]
      have e : c + m - s + (s - n + i) = c + m - n + i := by omega
      rw [e, Nat.mod_eq_of_lt (by omega)]
    · rw [getD_append_right (by simp [hlen]; omega), List.length_drop,
        hlen, getD_take (by omega)]
      have e : c + m - s + (s - n + i) = (i - (m - (c + m - n))) + m := by
        omega
      rw [e, Nat.add_mod_right, Nat.mod_eq_of_lt (by omega)]

theorem RingBuffer.get_correct {b : RingBuffer} (hInv : b.Inv) {n : Nat}
    (h1 : 1 ≤ n) (h2 : n ≤ b.size) :
    b.get_samples n =
      some (takeLast n b.absSamples, takeLast n b.absTimes) := by
  obtain ⟨hs, ht, hc, hsz, hd⟩ := hInv
  have hm : 0 < b.max := by omega
  have hend : (if b.size = b.max then b.cur else b.size) = b.cur := by
    by_cases hfull : b.size = b.max
    · rw [if_pos hfull]
    · rw [if_neg hfull]
      rcases hd with h | h
      · exact absurd h hfull
      · exact h.symm
  unfold RingBuffer.get_samples
  rw [if_neg (by omega)]
  simp only [hend]
  rcases Nat.lt_or_ge b.cur n with hcn | hcn
  · -- the requested range wraps past the end of the backing arrays
    have hstart : (b.cur + b.max - n) % b.max = b.cur + b.max - n :=
      Nat.mod_eq_of_lt (by omega)
    rw [hstart, if_neg (by omega)]
    simp only [Option.some.injEq, Prod.mk.injEq]
    exact ⟨ring_get_wrap [] b.samples b.max b.cur b.size n hs hc hsz h2 hcn,
      ring_get_wrap 0 b.timestamp b.max b.cur b.size n ht hc hsz h2 hcn⟩
  · -- contiguous slice
    have hstart : (b.cur + b.max - n) % b.max = b.cur - n := by
      have e : b.cur + b.max - n = (b.cur - n) + b.max := by omega
      rw [e, Nat.add_mod_right]
      exact Nat.mod_eq_of_lt (by omega)
    rw [hstart, if_pos (by omega), (by omega : b.cur - (b.cur - n) = n)]
    simp only [Option.some.injEq, Prod.mk.injEq]
    exact ⟨ring_get_slice [] b.samples b.max b.cur b.size n hs hc hsz h1 h2 hcn,
      ring_get_slice 0 b.timestamp b.max b.cur b.size n ht hc hsz h1 h2 hcn⟩

theorem set_append_of_length {l₁ l₂ : List α} {i : Nat}
    (h : i = l₁.length) (a : α) :
    (l₁ ++ l₂).set i a = l₁ ++ l₂.set 0 a := by
  subst h
  rw [List.set_append, if_neg (by omega), Nat.sub_self]

theorem RingBuffer.appendAll_init_spec (C nch : Nat) (hC : 0 < C)
    (items : List (ℚ × List ℚ)) :
    ((RingBuffer.init nch C).appendAll items).max = C ∧
    ((RingBuffer.init nch C).appendAll items).cur = items.length % C ∧
    ((RingBuffer.init nch C).appendAll items).size = min items.length C ∧
    ((RingBuffer.init nch C).appendAll items).Inv ∧
    ((RingBuffer.init nch C).appendAll items).absSamples =
      takeLast C (items.map Prod.snd) ∧
    ((RingBuffer.init nch C).appendAll items).absTimes =
      takeLast C (items.map Prod.fst) := by
  obtain ⟨hmax, hcur, hsize, hinv, habsS, habsT⟩ :=
    RingBuffer.appendAll_spec items _ (RingBuffer.inv_init hC)
  refine ⟨hmax, ?_, ?_, hinv, ?_, ?_⟩
  · rw [hcur]
    show (0 + items.length) % C = _
    rw [Nat.zero_add]
  · rw [hsize]
    show min (0 + items.length) C = _
    rw [Nat.zero_add]
  · rw [habsS]
    show takeLast C ((RingBuffer.init nch C).absSamples ++ _) = _
    have he : (RingBuffer.init nch C).absSamples = [] := rfl
    rw [he, List.nil_append]
  · rw [habsT]
    show takeLast C ((RingBuffer.init nch C).absTimes ++ _) = _
    have he : (RingBuffer.init nch C).absTimes = [] := rfl
    rw [he, List.nil_append]

theorem RingBuffer.samples_fill {C nch : Nat} (hC : 0 < C)
    (items : List (ℚ × List ℚ)) (hL : items.length ≤ C) :
    ((RingBuffer.init nch C).appendAll items).samples =
      items.map Prod.snd ++
        List.replicate (C - items.length) (List.replicate nch 0) := by
  induction items using List.reverseRecOn with
  | nil => simp [RingBuffer.init, RingBuffer.appendAll]
  | append_singleton items a ih =>
    rw [List.length_append, List.length_singleton] at hL
    have hL' : items.length ≤ C := by omega
    have ihs := ih hL'
    obtain ⟨hmax, hcur, hsize, hinv, _, _⟩ :=
      RingBuffer.appendAll_init_spec C nch hC items
    have hcur' : ((RingBuffer.init nch C).appendAll items).cur =
        items.length := by
      rw [hcur]
      exact Nat.mod_eq_of_lt (by omega)
    have hAll : (RingBuffer.init nch C).appendAll (items ++ [a]) =
        ((RingBuffer.init nch C).appendAll items).append a.1 a.2 := by
      rw [RingBuffer.appendAll, RingBuffer.appendAll, List.foldl_append]
      rfl
    rw [hAll]
    show ((RingBuffer.init nch C).appendAll items).samples.set
        ((RingBuffer.init nch C).appendAll items).cur a.2 = _
    rw [hcur', ihs,
      set_append_of_length (show items.length = (items.map Prod.snd).length
        by simp) a.2,
      (by omega : C - items.length = (C - (items.length + 1)) + 1),
      List.replicate_succ, List.set_cons_zero]
    simp [List.length_append]

theorem RingBuffer.get_samples_zero {b : RingBuffer} (hInv : b.Inv) :
    b.get_samples 0 =
      some (b.samples.drop b.endIndex ++ b.samples.take b.endIndex,
            b.timestamp.drop b.endIndex ++ b.timestamp.take b.endIndex) := by
  obtain ⟨hs, ht, hc, hsz, hd⟩ := hInv
  have hm : 0 < b.max := by omega
  have he : b.endIndex < b.max := by
    unfold RingBuffer.endIndex
    split
    · exact hc
    · omega
  unfold RingBuffer.get_samples
  rw [if_neg (by omega)]
  rw [show (if b.size = b.max then b.cur else b.size) = b.endIndex
    from rfl]
  have hstart : (b.endIndex + b.max - 0) % b.max = b.endIndex := by
    rw [Nat.sub_zero, Nat.add_mod_right]
    exact Nat.mod_eq_of_lt he
  simp only [hstart]
  rw [if_neg (by omega)]

/-! ### Claim theorems: decision smoother (PicoMessager) -/

/-- C3 counterexample: a capacity-2 smoother fed `["A", "B"]` does NOT
stay silent with its active gesture unset — the very first observation
already has the well-defined mode `"A"`, which differs from the unset
active gesture, so a change event fires and the active gesture becomes
`"A"` (the tie on the second observation then changes nothing, under
either the modern first-most-common or the legacy raising semantics of
the library mode). -/
theorem update_gesture_tie_not_silent :
    ¬ ((((PicoMessager.init 2).observeAll ["A", "B"]).2 = [] ∧
        ((PicoMessager.init 2).observeAll
          ["A", "B"]).1.current_gesture = none)) := by
  decide

/-- C3 amended: `update_gesture` never raises; it always appends the
observed label to the bounded history (so the history does change), and
only when the library mode computation fails (empty history) is the
observation a no-op on the active gesture with no event.  A capacity-2
smoother fed `["A", "B"]` emits exactly one change event — to `"A"`, on
the first observation — and ends with active gesture `"A"` and history
`["A", "B"]`. -/
theorem update_gesture_tie_behaviour :
    (∀ (m : PicoMessager) (g : String),
      ((m.update_gesture g).1).buffer =
        takeLast m.maxlen (m.buffer ++ [g]) ∧
      ((m.update_gesture g).1).maxlen = m.maxlen ∧
      (pyMode (takeLast m.maxlen (m.buffer ++ [g])) = none →
        (m.update_gesture g).2 = none ∧
        ((m.update_gesture g).1).current_gesture = m.current_gesture)) ∧
    (PicoMessager.init 2).observeAll ["A", "B"] =
      (⟨2, ["A", "B"], some "A"⟩, ["A"]) := by
  refine ⟨fun m g => ?_, by decide⟩
  cases hp : pyMode (takeLast m.maxlen (m.buffer ++ [g])) with
  | none =>
    refine ⟨?_, ?_, fun _ => ⟨?_, ?_⟩⟩ <;>
      simp [PicoMessager.update_gesture, hp]
  | some mc =>
    refine ⟨?_, ?_, fun hcon => ?_⟩
    · by_cases hc : mc ≠ "" ∧ some mc ≠ m.current_gesture <;>
        simp [PicoMessager.update_gesture, hp, hc]
    · by_cases hc : mc ≠ "" ∧ some mc ≠ m.current_gesture <;>
        simp [PicoMessager.update_gesture, hp, hc]
    · exact Option.noConfusion hcon

/-- C3 amended witness: the mode-failure no-op instantiated where the
library mode actually fails — a zero-capacity history keeps the
appended-then-evicted buffer empty. -/
theorem update_gesture_tie_behaviour_witness :
    pyMode (takeLast 0 ([] ++ ["A"])) = none ∧
    (((PicoMessager.init 0).update_gesture "A").2 = none ∧
      (((PicoMessager.init 0).update_gesture "A").1).current_gesture =
        none) := by
  refine ⟨by decide, ?_⟩
  exact (update_gesture_tie_behaviour.1 (PicoMessager.init 0) "A").2.2
    (by decide)

/-! ### Claim theorems: RingBuffer -/

/-- C1: for every capacity `C > 0` and every append sequence of length
`L` with `1 ≤ L ≤ C` into a fresh buffer, `get_samples(L)` returns
exactly the appended sample rows and their timestamps in chronological
append order (oldest to newest); the wrap-around assembly (tail segment
before head segment) is part of `get_samples` and is exercised at
`L = C`. -/
theorem get_samples_chronological_order (C nch : Nat) (hC : 0 < C)
    (items : List (ℚ × List ℚ)) (h1 : 1 ≤ items.length)
    (h2 : items.length ≤ C) :
    ((RingBuffer.init nch C).appendAll items).get_samples items.length =
      some (items.map Prod.snd, items.map Prod.fst) := by
  obtain ⟨hmax, hcur, hsize, hinv, habsS, habsT⟩ :=
    RingBuffer.appendAll_init_spec C nch hC items
  have hsz : ((RingBuffer.init nch C).appendAll items).size =
      items.length := by omega
  rw [RingBuffer.get_correct hinv h1 (le_of_eq hsz.symm), habsS, habsT,
    takeLast_takeLast _ h2, takeLast_takeLast _ h2,
    takeLast_all (by simp), takeLast_all (by simp)]

theorem get_samples_chronological_order_witness :
    (1 ≤ 2 ∧ 2 ≤ 2) ∧
    ((RingBuffer.init 1 2).appendAll
        [((1 : ℚ), [(5 : ℚ)]), (2, [7])]).get_samples 2 =
      some ([[5], [7]], [1, 2]) := by
  refine ⟨⟨by decide, by decide⟩, ?_⟩
  have h := get_samples_chronological_order 2 1 (by decide)
    [((1 : ℚ), [(5 : ℚ)]), (2, [7])] (by decide) (by decide)
  simpa using h

/-- C2: after an append sequence longer than the capacity `C`, the
buffer retains exactly the most recent `C` entries: for `1 ≤ n ≤ C`,
`get_samples(n)` returns the last `n` appended rows and timestamps in
order; for `n > C` it raises the insufficient-data error; and on any
buffer whatsoever the error is raised precisely when `n` exceeds the
current fill count. -/
theorem get_samples_overflow_retention (C nch : Nat) (hC : 0 < C)
    (items : List (ℚ × List ℚ)) (hL : C < items.length) :
    (∀ n, 1 ≤ n → n ≤ C →
      ((RingBuffer.init nch C).appendAll items).get_samples n =
        some (takeLast n (items.map Prod.snd),
              takeLast n (items.map Prod.fst))) ∧
    (∀ n, C < n →
      ((RingBuffer.init nch C).appendAll items).get_samples n = none) ∧
    (∀ (b : RingBuffer) (n : Nat),
      b.get_samples n = none ↔ b.size < n) := by
  obtain ⟨hmax, hcur, hsize, hinv, habsS, habsT⟩ :=
    RingBuffer.appendAll_init_spec C nch hC items
  have hsz : ((RingBuffer.init nch C).appendAll items).size = C := by
    omega
  refine ⟨?_, ?_, ?_⟩
  · intro n hn1 hn2
    rw [RingBuffer.get_correct hinv hn1 (by omega), habsS, habsT,
      takeLast_takeLast _ hn2, takeLast_takeLast _ hn2]
  · intro n hn
    unfold RingBuffer.get_samples
    rw [if_pos (by omega)]
  · intro b n
    constructor
    · intro h
      by_contra hcon
      push_neg at hcon
      unfold RingBuffer.get_samples at h
      rw [if_neg (by omega)] at h
      split at h <;> simp at h <;> split at h <;> simp at h
    · intro h
      unfold RingBuffer.get_samples
      rw [if_pos h]

theorem get_samples_overflow_retention_witness :
    (0 < 1 ∧ 1 < 2) ∧
    ((RingBuffer.init 1 1).appendAll
        [((1 : ℚ), [(5 : ℚ)]), (2, [7])]).get_samples 1 =
      some ([[7]], [2]) ∧
    ((RingBuffer.init 1 1).appendAll
        [((1 : ℚ), [(5 : ℚ)]), (2, [7])]).get_samples 2 = none := by
  have h := get_samples_overflow_retention 1 1 (by decide)
    [((1 : ℚ), [(5 : ℚ)]), (2, [7])] (by decide)
  refine ⟨⟨by decide, by decide⟩, ?_, h.2.1 2 (by decide)⟩
  have h1 := h.1 1 (by decide) (by decide)
  simpa [takeLast] using h1

/-- C8: along every append sequence from a fresh buffer of positive
capacity `C`, the fill count never exceeds `C` and every single append
keeps it non-decreasing; once the buffer reports full it stays full
after any further append (the full state is absorbing), and in the full
state each append writes the cursor slot, which holds the logically
oldest retained sample (the head of the oldest-to-newest abstraction of
the buffer). -/
theorem ringBuffer_fill_invariants (C nch : Nat) (hC : 0 < C)
    (items : List (ℚ × List ℚ)) (t : ℚ) (x : List ℚ) :
    ((RingBuffer.init nch C).appendAll items).size ≤ C ∧
    ((RingBuffer.init nch C).appendAll items).size ≤
      (((RingBuffer.init nch C).appendAll items).append t x).size ∧
    (((RingBuffer.init nch C).appendAll items).is_full = true →
      (((RingBuffer.init nch C).appendAll items).append t x).is_full
        = true) ∧
    (((RingBuffer.init nch C).appendAll items).is_full = true →
      (((RingBuffer.init nch C).appendAll items).append t x).samples =
        ((RingBuffer.init nch C).appendAll items).samples.set
          ((RingBuffer.init nch C).appendAll items).cur x ∧
      ((RingBuffer.init nch C).appendAll items).absSamples.head? =
        some (((RingBuffer.init nch C).appendAll items).samples.getD
          ((RingBuffer.init nch C).appendAll items).cur [])) := by
  obtain ⟨hmax, hcur, hsize, hinv, habsS, habsT⟩ :=
    RingBuffer.appendAll_init_spec C nch hC items
  obtain ⟨hsA, htA, hcA, hszA, hdA⟩ := hinv
  refine ⟨by omega, ?_, ?_, ?_⟩
  · show _ ≤ min (((RingBuffer.init nch C).appendAll items).size + 1)
      (((RingBuffer.init nch C).appendAll items).max
        )
    omega
  · intro hfull
    have hfull' : ((RingBuffer.init nch C).appendAll items).size =
        ((RingBuffer.init nch C).appendAll items).max := by
      simpa [RingBuffer.is_full] using hfull
    simp only [RingBuffer.is_full, RingBuffer.append]
    simp only [beq_iff_eq]
    omega
  · intro hfull
    have hfull' : ((RingBuffer.init nch C).appendAll items).size =
        ((RingBuffer.init nch C).appendAll items).max := by
      simpa [RingBuffer.is_full] using hfull
    refine ⟨rfl, ?_⟩
    rw [RingBuffer.absSamples, hfull']
    obtain ⟨k, hk⟩ : ∃ k,
        ((RingBuffer.init nch C).appendAll items).max = k + 1 :=
      ⟨((RingBuffer.init nch C).appendAll items).max - 1, by omega⟩
    rw [hk, List.range_succ_eq_map, List.map_cons, List.head?_cons]
    have e : ((RingBuffer.init nch C).appendAll items).cur + (k + 1) -
        (k + 1) + 0 = ((RingBuffer.init nch C).appendAll items).cur := by
      omega
    rw [e, Nat.mod_eq_of_lt (by omega)]

theorem ringBuffer_fill_invariants_witness :
    ((RingBuffer.init 1 1).appendAll [((1 : ℚ), [(2 : ℚ)])]).is_full
      = true ∧
    (((RingBuffer.init 1 1).appendAll
        [((1 : ℚ), [(2 : ℚ)])]).append 3 [4]).is_full = true := by
  refine ⟨by decide, ?_⟩
  exact (ringBuffer_fill_invariants 1 1 (by decide) [((1 : ℚ), [(2 : ℚ)])]
    3 [4]).2.2.1 (by decide)

/-- C10: `get_samples(0)` never reports an error and never returns an
empty result: since the computed start index equals the end index, the
wrap-around branch returns the whole backing array rotated at the end
index — `C` rows and `C` timestamps — including the never-written
zero-filled slots whenever fewer than `C` samples have been appended. -/
theorem get_samples_zero_whole_backing (C nch : Nat) (hC : 0 < C)
    (items : List (ℚ × List ℚ)) :
    ((RingBuffer.init nch C).appendAll items).get_samples 0 =
      some (((RingBuffer.init nch C).appendAll items).samples.drop
              ((RingBuffer.init nch C).appendAll items).endIndex ++
            ((RingBuffer.init nch C).appendAll items).samples.take
              ((RingBuffer.init nch C).appendAll items).endIndex,
            ((RingBuffer.init nch C).appendAll items).timestamp.drop
              ((RingBuffer.init nch C).appendAll items).endIndex ++
            ((RingBuffer.init nch C).appendAll items).timestamp.take
              ((RingBuffer.init nch C).appendAll items).endIndex) ∧
    (∀ rows ts,
      ((RingBuffer.init nch C).appendAll items).get_samples 0 =
        some (rows, ts) → rows.length = C ∧ ts.length = C) ∧
    (items.length < C →
      ∀ rows ts,
        ((RingBuffer.init nch C).appendAll items).get_samples 0 =
          some (rows, ts) → List.replicate nch 0 ∈ rows) := by
  obtain ⟨hmax, hcur, hsize, hinv, habsS, habsT⟩ :=
    RingBuffer.appendAll_init_spec C nch hC items
  obtain ⟨hsA, htA, hcA, hszA, hdA⟩ := hinv
  have hz := RingBuffer.get_samples_zero
    (b := (RingBuffer.init nch C).appendAll items) ⟨hsA, htA, hcA, hszA, hdA⟩
  have he : ((RingBuffer.init nch C).appendAll items).endIndex ≤
      ((RingBuffer.init nch C).appendAll items).max := by
    unfold RingBuffer.endIndex
    split <;> omega
  refine ⟨hz, ?_, ?_⟩
  · intro rows ts h
    rw [hz] at h
    simp only [Option.some.injEq, Prod.mk.injEq] at h
    obtain ⟨h1, h2⟩ := h
    constructor
    · rw [← h1]
      simp only [List.length_append, List.length_drop, List.length_take]
      omega
    · rw [← h2]
      simp only [List.length_append, List.length_drop, List.length_take]
      omega
  · intro hlt rows ts h
    rw [hz] at h
    simp only [Option.some.injEq, Prod.mk.injEq] at h
    obtain ⟨h1, _⟩ := h
    have hmem : List.replicate nch 0 ∈
        ((RingBuffer.init nch C).appendAll items).samples := by
      rw [RingBuffer.samples_fill hC items (by omega)]
      refine List.mem_append_right _ ?_
      rw [List.mem_replicate]
      exact ⟨by omega, rfl⟩
    rw [← h1]
    rcases List.mem_append.mp
        ((List.take_append_drop
            ((RingBuffer.init nch C).appendAll items).endIndex
            ((RingBuffer.init nch C).appendAll items).samples) ▸ hmem)
      with hL | hR
    · exact List.mem_append_right _ hL
    · exact List.mem_append_left _ hR

/-! ### Helpers for the EMG processing claims -/

theorem getD_ge {l : List α} {i : Nat} (h : l.length ≤ i) (d : α) :
    l.getD i d = d := by
  rw [List.getD_eq_getElem?_getD, List.getElem?_eq_none h]
  rfl

theorem getD_map_lt {f : List ℚ → List ℚ} {l : List (List ℚ)} {i : Nat}
    (h : i < l.length) : (l.map f).getD i [] = f (l.getD i []) := by
  rw [List.getD_eq_getElem?_getD, List.getElem?_map,
    List.getElem?_eq_getElem h, List.getD_eq_getElem _ _ h]
  rfl

theorem getD_replicate_zero (k i : Nat) :
    (List.replicate k (0 : ℚ)).getD i 0 = 0 := by
  rw [List.getD_eq_getElem?_getD, List.getElem?_replicate]
  split <;> rfl

theorem zero_trailing_length (fs : Nat) (row : List ℚ) :
    (zero_trailing fs row).length = row.length := by
  simp [zero_trailing]
  omega

theorem zero_trailing_getD_low {fs j : Nat} {row : List ℚ}
    (h : j + fs < row.length) :
    (zero_trailing fs row).getD j 0 = row.getD j 0 := by
  unfold zero_trailing
  rw [getD_append_left (by simp; omega), getD_take (by omega)]

theorem zero_trailing_getD_high {fs j : Nat} {row : List ℚ}
    (h : row.length ≤ j + fs) :
    (zero_trailing fs row).getD j 0 = 0 := by
  unfold zero_trailing
  rw [getD_append_right (by simp; omega), getD_replicate_zero]

theorem colSum_length {n : Nat} (B : List (List ℚ))
    (h : ∀ r ∈ B, r.length = n) : (colSum n B).length = n := by
  induction B with
  | nil => simp [colSum]
  | cons r rs ih =>
    rw [colSum, List.length_zipWith, h r (by simp),
      ih (fun r hr => h r (by simp [hr]))]
    omega

theorem zipWith_sub_add_cancel (l₁ l₂ : List ℚ)
    (h : l₁.length ≤ l₂.length) :
    List.zipWith (fun a c => a + c)
      (List.zipWith (fun a c => a - c) l₁ l₂) l₂ = l₁ := by
  induction l₁ generalizing l₂ with
  | nil => simp
  | cons a l ih =>
    cases l₂ with
    | nil => simp at h
    | cons c l₂ =>
      simp only [List.zipWith, List.cons.injEq]
      exact ⟨sub_add_cancel a c, ih l₂ (by simpa using h)⟩

theorem flatMap_length_const {α β : Type} (l : List α) (f : α → List β)
    (k : Nat) (h : ∀ a ∈ l, (f a).length = k) :
    (l.flatMap f).length = l.length * k := by
  induction l with
  | nil => simp
  | cons a l ih =>
    rw [List.flatMap_cons, List.length_append, h a (by simp),
      ih (fun a ha => h a (by simp [ha])), List.length_cons]
    ring

/-! ### Claim theorems: windowing, features, conditioning -/

/-- C4: on a 1000-sample block, windowing with `window_size = 400` and
`step = 200` yields exactly 4 windows starting at `[0, 200, 400, 600]`,
each of width exactly 400; no partial fifth window appears, and in
general every emitted start index fits entirely inside the block, so a
trailing remainder shorter than the window is dropped, never padded. -/
theorem sliding_window_four_windows (data : List (List ℚ))
    (hne : data ≠ []) (hrect : ∀ r ∈ data, r.length = 1000) :
    window_starts 1000 400 200 = [0, 200, 400, 600] ∧
    (sliding_window data 400 200).length = 4 ∧
    (∀ w ∈ sliding_window data 400 200, ∀ r ∈ w, r.length = 400) ∧
    (∀ ns ws st, 1 ≤ st → ∀ s ∈ window_starts ns ws st, s + ws ≤ ns) := by
  have hgen : ∀ ns ws st, 1 ≤ st →
      ∀ s ∈ window_starts ns ws st, s + ws ≤ ns := by
    intro ns ws st hst s hs
    unfold window_starts at hs
    split at hs
    · obtain ⟨i, hi, rfl⟩ := List.mem_map.mp hs
      rw [List.mem_range] at hi
      have h2 : (i + 1) * st ≤ ns - ws + 1 + st - 1 :=
        (Nat.le_div_iff_mul_le hst).mp hi
      rw [Nat.succ_mul] at h2
      omega
    · simp at hs
  have hstarts : window_starts 1000 400 200 = [0, 200, 400, 600] := by
    decide
  have hh : (data.headD []).length = 1000 := by
    cases data with
    | nil => exact absurd rfl hne
    | cons r rest => simpa using hrect r (by simp)
  refine ⟨hstarts, ?_, ?_, hgen⟩
  · unfold sliding_window
    rw [hh, hstarts]
    simp
  · intro w hw rr hrr
    unfold sliding_window at hw
    rw [hh] at hw
    obtain ⟨s, hs, rfl⟩ := List.mem_map.mp hw
    obtain ⟨row, hrow, rfl⟩ := List.mem_map.mp hrr
    have h400 : s + 400 ≤ 1000 := hgen 1000 400 200 (by omega) s hs
    simp [List.length_take, List.length_drop, hrect row hrow]
    omega

theorem sliding_window_four_windows_witness :
    ([List.replicate 1000 (0 : ℚ)] ≠ []) ∧
    window_starts 1000 400 200 = [0, 200, 400, 600] ∧
    (sliding_window [List.replicate 1000 (0 : ℚ)] 400 200).length = 4 := by
  have hrect : ∀ r ∈ [List.replicate 1000 (0 : ℚ)], r.length = 1000 := by
    intro r hr
    rw [List.mem_singleton] at hr
    rw [hr, List.length_replicate]
  have h := sliding_window_four_windows [List.replicate 1000 (0 : ℚ)]
    (List.cons_ne_nil _ _) hrect
  exact ⟨List.cons_ne_nil _ _, h.1, h.2.1⟩

/-- C5: in rich mode every feature row produced for a window has length
exactly `channels * 3 * 19` — three wavelet components per channel and
nineteen descriptors per component — for every transcendental/filter
instantiation and independently of the numeric window content. -/
theorem extract_wavelet_features_length (sqrtF expF logF : ℚ → ℚ)
    (dwtA dwtD : List ℚ → List ℚ) (emg_data : List (List ℚ))
    (nch ws ov : Nat) :
    ∀ v ∈ extract_wavelet_features sqrtF expF logF dwtA dwtD emg_data
        nch ws ov, v.length = nch * 3 * 19 := by
  intro v hv
  unfold extract_wavelet_features at hv
  obtain ⟨s, _, rfl⟩ := List.mem_map.mp hv
  have h19 : ∀ x : List ℚ, (features19 sqrtF expF logF x).length = 19 :=
    fun x => rfl
  rw [flatMap_length_const _ _ 57 ?hin]
  case hin =>
    intro ch _
    rw [wavedec2, List.flatMap_cons, List.flatMap_cons, List.flatMap_cons,
      List.flatMap_nil, List.length_append, List.length_append,
      List.length_append, h19, h19, h19]
    rfl
  · rw [matT, List.length_map, List.length_range]
    ring

theorem extract_wavelet_features_length_witness :
    ((extract_wavelet_features id id id id id [[(0 : ℚ)]] 1 1 0).headD
      []).length = 1 * 3 * 19 := by
  refine extract_wavelet_features_length id id id id id [[(0 : ℚ)]] 1 1 0
    _ ?_
  exact List.Mem.head _

/-- C9: the IALV descriptor (16th of the 19, index 15) is the sum of
`logF` over `np.abs(coeff) + 1e-6`, and every one of those arguments is
at least `1e-6`, hence strictly positive, for every channel and every
component of its decomposition — including all-zero windows — so in
exact arithmetic no logarithm is ever taken at a non-positive point and
the descriptor value is a finite number. -/
theorem logarithm_descriptor_args_positive (sqrtF expF logF : ℚ → ℚ)
    (dwtA dwtD : List ℚ → List ℚ) (channel_data : List ℚ) :
    (∀ coeff ∈ wavedec2 dwtA dwtD channel_data, ∀ a ∈ logArgs coeff,
      (1 : ℚ) / 1000000 ≤ a ∧ 0 < a) ∧
    (∀ coeff : List ℚ, (features19 sqrtF expF logF coeff).getD 15 0 =
      ((logArgs coeff).map logF).sum) := by
  constructor
  · intro coeff _ a ha
    obtain ⟨x, _, rfl⟩ := List.mem_map.mp ha
    have hx := abs_nonneg x
    constructor
    · linarith
    · have : (0 : ℚ) < 1 / 1000000 := by norm_num
      linarith
  · intro coeff
    rfl

theorem logarithm_descriptor_args_positive_witness :
    (1 : ℚ) / 1000000 ≤ (1 : ℚ) / 1000000 ∧ (0 : ℚ) < 1 / 1000000 :=
  (logarithm_descriptor_args_positive id id id id id [0, 0]).1
    [0, 0] (by decide) (1 / 1000000) (by norm_num [logArgs])

/-- C7: subtracting the per-sample cross-channel average and then adding
the same computed average back reproduces the original block exactly in
exact rational arithmetic, for every rectangular block. -/
theorem car_addback_roundtrip (n : Nat) (emg_data : List (List ℚ))
    (h : ∀ r ∈ emg_data, r.length = n) :
    add_common_average n emg_data
      (common_average_reference n emg_data) = emg_data := by
  unfold add_common_average common_average_reference
  rw [List.map_map]
  have havg : (common_avg n emg_data).length = n := by
    unfold common_avg
    rw [List.length_map, colSum_length emg_data h]
  have hpt : ∀ r ∈ emg_data,
      (List.zipWith (fun a c => a + c) ∘ fun row =>
        List.zipWith (fun a c => a - c) row (common_avg n emg_data)) r
        (common_avg n emg_data) = r := by
    intro r hr
    exact zipWith_sub_add_cancel r (common_avg n emg_data)
      (by rw [h r hr, havg])
  calc emg_data.map _ = emg_data.map id :=
        List.map_congr_left (fun r hr => hpt r hr)
    _ = emg_data := List.map_id emg_data

theorem car_addback_roundtrip_witness :
    (∀ r ∈ [[(1 : ℚ)], [3]], r.length = 1) ∧
    add_common_average 1 [[(1 : ℚ)], [3]]
      (common_average_reference 1 [[(1 : ℚ)], [3]]) = [[(1 : ℚ)], [3]] :=
  ⟨by decide, car_addback_roundtrip 1 [[(1 : ℚ)], [3]] (by decide)⟩

/-- C6 counterexample: `process_emg_pipeline` does NOT leave the array
passed in unchanged — on the block `[[1, 1]]` with a one-sample second
it zeroes the trailing entry of the caller's array in place. -/
theorem process_emg_pipeline_mutates_input :
    (process_emg_pipeline id id [[(1 : ℚ), 1]] 1).2 ≠ [[(1 : ℚ), 1]] := by
  decide

/-- C6 amended: the individual conditioning transforms return fresh
arrays, but `process_emg_pipeline` itself mutates its input: after the
call the caller's array keeps its shape, keeps every entry more than
`sample_rate` positions from the end, and holds zero in the trailing
`sample_rate` positions of each channel; the returned block is computed
from that zeroed array by the (fresh) filter and envelope stages. -/
theorem process_emg_pipeline_frame_effect
    (filterF envF : List (List ℚ) → List (List ℚ))
    (emg_data : List (List ℚ)) (fs : Nat) :
    ((process_emg_pipeline filterF envF emg_data fs).2.length =
      emg_data.length) ∧
    (∀ i, ((process_emg_pipeline filterF envF emg_data fs).2.getD i
        []).length = (emg_data.getD i []).length) ∧
    (∀ i j, j + fs < (emg_data.getD i []).length →
      ((process_emg_pipeline filterF envF emg_data fs).2.getD i
        []).getD j 0 = (emg_data.getD i []).getD j 0) ∧
    (∀ i j, j < (emg_data.getD i []).length →
      (emg_data.getD i []).length ≤ j + fs →
      ((process_emg_pipeline filterF envF emg_data fs).2.getD i
        []).getD j 0 = 0) ∧
    (process_emg_pipeline filterF envF emg_data fs).1 =
      envF (filterF (emg_data.map (zero_trailing fs))) := by
  refine ⟨?_, ?_, ?_, ?_, rfl⟩
  · show (emg_data.map (zero_trailing fs)).length = emg_data.length
    simp
  · intro i
    show ((emg_data.map (zero_trailing fs)).getD i []).length = _
    rcases Nat.lt_or_ge i emg_data.length with hi | hi
    · rw [getD_map_lt hi, zero_trailing_length]
    · rw [getD_ge (by simpa using hi), getD_ge hi]
  · intro i j hj
    show ((emg_data.map (zero_trailing fs)).getD i []).getD j 0 = _
    rcases Nat.lt_or_ge i emg_data.length with hi | hi
    · rw [getD_map_lt hi]
      exact zero_trailing_getD_low hj
    · rw [getD_ge hi] at hj
      simp at hj
  · intro i j hj1 hj2
    show ((emg_data.map (zero_trailing fs)).getD i []).getD j 0 = 0
    rcases Nat.lt_or_ge i emg_data.length with hi | hi
    · rw [getD_map_lt hi]
      exact zero_trailing_getD_high (by omega)
    · rw [getD_ge hi] at hj1
      simp at hj1

theorem process_emg_pipeline_frame_effect_witness :
    (0 + 1 < ([[(1 : ℚ), 1]].getD 0 []).length) ∧
    ((process_emg_pipeline id id [[(1 : ℚ), 1]] 1).2.getD 0 []).getD 0 0 =
      ([[(1 : ℚ), 1]].getD 0 []).getD 0 0 :=
  ⟨by decide,
    (process_emg_pipeline_frame_effect id id [[(1 : ℚ), 1]] 1).2.2.1 0 0
      (by decide)⟩

theorem get_samples_zero_whole_backing_witness :
    (0 < 2 ∧ 1 < 2) ∧
    ((RingBuffer.init 1 2).appendAll [((1 : ℚ), [(5 : ℚ)])]).get_samples 0 =
      some ([[0], [5]], [0, 1]) ∧
    List.replicate 1 (0 : ℚ) ∈ [[(0 : ℚ)], [5]] := by
  refine ⟨⟨by decide, by decide⟩, by decide, ?_⟩
  exact (get_samples_zero_whole_backing 2 1 (by decide)
      [((1 : ℚ), [(5 : ℚ)])]).2.2 (by decide) [[0], [5]] [0, 1] (by decide)
